import Mathlib

/-!
Verification of the do-retry-proxy repository (src/retry-proxy.ts and its
variant implementation in the same file) against its specification.

The repository wraps a Durable Object namespace so that RPC calls are
retried with full-jitter exponential backoff.  The file `retry-proxy.ts`
contains two implementations of the same design:

* the primary implementation (`createStubProxy` / `withRetry`, first copy),
  where the retry decision is `isErrorRetryable(err) || (options.isRetryable
  && options.isRetryable(err))` — built-in rule OR custom predicate, and
  where a fresh stub is obtained right after a failed attempt;
* the alternate implementation (second copy in the same file), where the
  configured predicate is `options?.isRetryable ?? isErrorRetryable` — a
  supplied custom predicate fully replaces the built-in rule, and a fresh
  stub is obtained at the start of every attempt after the first.

Both are embedded below.  Handles (stubs) are modelled by the index of the
`getStub()` acquisition that produced them: the handle already held by the
proxy when the call starts is index 0, and the j-th additional acquisition
during the retry loop yields index j.  The outcome of the underlying RPC
method is modelled by a function `invoke : attempt → args → Except ErrVal V`;
throwing the JavaScript value `undefined` (an unassigned `lastError`) is
modelled by `Except.error none` in the overall call outcome, while a caught
error value `e` is `Except.error (some e)`.  Backoff waiting only affects
timing, not the observable call trace, so `scheduler.wait` is not recorded.
-/

namespace DoRetryProxy

/-- The literal substring that `isErrorRetryable` looks for in the rendered
error message (`String(err)`), from retry-proxy.ts line 36. -/
def overloadMessage : String := "Durable Object is overloaded"

/-- An error value, as far as the classifier can observe it: the two boolean
markers it probes (a field may be absent, i.e. `undefined`, modelled by
`none`) and the rendering `String(err)` of the error. -/
structure ErrVal where
  retryable : Option Bool
  overloaded : Option Bool
  msg : String
deriving DecidableEq, Repr

/-- JavaScript truthiness of an optional boolean property:
`Boolean(e?.retryable)` is `false` when the property is absent. -/
def truthy : Option Bool → Bool
  | some b => b
  | none => false

/-- `msg.includes("Durable Object is overloaded")`: substring containment of
the overload message in the rendered error message. -/
def includesOverloadMessage (msg : String) : Bool :=
  decide (List.IsInfix overloadMessage.data msg.data)

/-- `isErrorRetryable` from retry-proxy.ts lines 33–37:
`Boolean(e?.retryable) && !Boolean(e?.overloaded) &&
!msg.includes("Durable Object is overloaded")`. -/
def isErrorRetryable (e : ErrVal) : Bool :=
  truthy e.retryable && !(truthy e.overloaded) && !(includesOverloadMessage e.msg)

/-- `jitterBackoff` from retry-proxy.ts lines 44–47:
`Math.floor(Math.random() * Math.min(2 ** attempt * baseDelayMs, maxDelayMs))`.
The draw of `Math.random()` is the explicit parameter `rand ∈ [0, 1)`. -/
def jitterBackoff (rand : ℚ) (attempt : ℕ) (baseDelayMs maxDelayMs : ℤ) : ℤ :=
  Int.floor (rand * ((min (2 ^ attempt * baseDelayMs) maxDelayMs : ℤ) : ℚ))

/-- Observable trace of one logical call through the retry proxy:
the final outcome (`Except.error none` = the JavaScript value `undefined`
was thrown), the sequence of underlying method invocations as
(handle index, arguments) pairs in order, and how many additional handles
were acquired via `getStub()` during the loop (the initial handle is not
counted). -/
structure CallTrace (A V : Type) where
  outcome : Except (Option ErrVal) V
  calls : List (ℕ × A)
  acquisitions : ℕ

/-- Number of underlying method invocations performed by a call. -/
def CallTrace.invocations {A V : Type} (t : CallTrace A V) : ℕ :=
  t.calls.length

/-- The retry decision of the primary implementation (retry-proxy.ts lines
88–98): retry iff `isErrorRetryable(err)` or, when present, the custom
`options.isRetryable(err)` — built-in rule OR custom predicate. -/
def shouldRetry (custom : Option (ErrVal → Bool)) (e : ErrVal) : Bool :=
  isErrorRetryable e ||
    (match custom with
     | some p => p e
     | none => false)

/-- The effective predicate of the alternate implementation (retry-proxy.ts
lines 318–322): `options?.isRetryable ?? isErrorRetryable` — a supplied
custom predicate fully replaces the built-in rule. -/
def shouldRetryAlt (custom : Option (ErrVal → Bool)) : ErrVal → Bool :=
  custom.getD isErrorRetryable

/-- The retry loop of the primary implementation (retry-proxy.ts lines
75–119).  `fuel` is the number of attempts the `while (attempt <=
options.maxAttempts)` guard still permits, i.e. `maxAttempts - attempt + 1`
clamped at 0; `cur` is the handle for the current attempt, `next` the index
the next `getStub()` acquisition will receive, `acq` the acquisitions so
far, and `calls` the invocations so far in reverse order.  The inner
`fuel = 0` test is the `attempt >= options.maxAttempts` break; after the
break or a falsy loop guard, `throw lastError` is modelled by
`Except.error lastError`. -/
def stubLoop {A V : Type} (custom : Option (ErrVal → Bool))
    (invoke : ℕ → A → Except ErrVal V) (args : A) :
    ℕ → ℕ → Option ErrVal → ℕ → ℕ → ℕ → List (ℕ × A) → CallTrace A V
  | 0, _, lastError, _, _, acq, calls =>
    ⟨Except.error lastError, calls.reverse, acq⟩
  | fuel + 1, attempt, _, cur, next, acq, calls =>
    match invoke attempt args with
    | Except.ok v => ⟨Except.ok v, ((cur, args) :: calls).reverse, acq⟩
    | Except.error e =>
      if shouldRetry custom e then
        if fuel = 0 then
          ⟨Except.error (some e), ((cur, args) :: calls).reverse, acq⟩
        else
          stubLoop custom invoke args fuel (attempt + 1) (some e)
            next (next + 1) (acq + 1) ((cur, args) :: calls)
      else
        ⟨Except.error (some e), ((cur, args) :: calls).reverse, acq⟩

/-- One logical call through the primary implementation: attempt 1 runs on
the initial handle (index 0) and the loop starts with the full
`maxAttempts` budget (`attempt = 1`, `lastError` unassigned). -/
def callRpc {A V : Type} (maxAttempts : ℤ) (custom : Option (ErrVal → Bool))
    (invoke : ℕ → A → Except ErrVal V) (args : A) : CallTrace A V :=
  stubLoop custom invoke args maxAttempts.toNat 1 none 0 1 0 []

/-- The retry loop of the alternate implementation (retry-proxy.ts lines
261–293).  The handle for the current attempt is computed at the start of
the attempt: `attempt === 1 ? target : getStub()`, so every attempt after
the first acquires a fresh handle before invoking. -/
def stubLoopAlt {A V : Type} (pred : ErrVal → Bool)
    (invoke : ℕ → A → Except ErrVal V) (args : A) :
    ℕ → ℕ → Option ErrVal → ℕ → ℕ → List (ℕ × A) → CallTrace A V
  | 0, _, lastError, _, acq, calls =>
    ⟨Except.error lastError, calls.reverse, acq⟩
  | fuel + 1, attempt, _, next, acq, calls =>
    let cur := if attempt = 1 then 0 else next
    let next1 := if attempt = 1 then next else next + 1
    let acq1 := if attempt = 1 then acq else acq + 1
    match invoke attempt args with
    | Except.ok v => ⟨Except.ok v, ((cur, args) :: calls).reverse, acq1⟩
    | Except.error e =>
      if pred e then
        if fuel = 0 then
          ⟨Except.error (some e), ((cur, args) :: calls).reverse, acq1⟩
        else
          stubLoopAlt pred invoke args fuel (attempt + 1) (some e)
            next1 acq1 ((cur, args) :: calls)
      else
        ⟨Except.error (some e), ((cur, args) :: calls).reverse, acq1⟩

/-- One logical call through the alternate implementation, with the
effective predicate `options?.isRetryable ?? isErrorRetryable`. -/
def callRpcAlt {A V : Type} (maxAttempts : ℤ) (custom : Option (ErrVal → Bool))
    (invoke : ℕ → A → Except ErrVal V) (args : A) : CallTrace A V :=
  stubLoopAlt (shouldRetryAlt custom) invoke args maxAttempts.toNat 1 none 1 0 []

/-- A member of a proxied object as the proxy `get` handler sees it: either a
non-callable property value or a callable method. -/
inductive Member (A R : Type) where
  | value : R → Member A R
  | method : (A → R) → Member A R

/-- The `get` handler of the stub proxy (retry-proxy.ts lines 62–73, primary
implementation): non-callable members are returned unmodified; callable
members are replaced with the retrying wrapper for that property. -/
def stubProxyGet {A R : Type} (underlying : String → Member A R)
    (retryWrapped : String → A → R) (prop : String) : Member A R :=
  match underlying prop with
  | Member.value v => Member.value v
  | Member.method _ => Member.method (retryWrapped prop)

/-- The `get` handler of the namespace proxy (retry-proxy.ts lines 148–183):
non-callable members pass through; `get`, `getByName` and `jurisdiction`
are intercepted and replaced with wrapping versions; every other callable
member (`idFromName`, `idFromString`, `newUniqueId`) is returned as the
underlying function itself (`value.bind(target)`), so each invocation of
the wrapper is exactly one invocation of the underlying operation with the
same arguments and result. -/
def nsProxyGet {A R : Type} (underlying : String → Member A R)
    (wrapped : String → A → R) (prop : String) : Member A R :=
  match underlying prop with
  | Member.value v => Member.value v
  | Member.method f =>
    if prop = "get" then Member.method (wrapped "get")
    else if prop = "getByName" then Member.method (wrapped "getByName")
    else if prop = "jurisdiction" then Member.method (wrapped "jurisdiction")
    else Member.method f

/-! ### Helper lemmas about the two retry loops -/

section LoopLemmas

variable {A V : Type}

/-- The sequence of handle/argument pairs produced by `n` consecutive
`getStub()` acquisitions starting at index `s`. -/
def handleSeq (s n : ℕ) (args : A) : List (ℕ × A) :=
  (List.range' s n).map (fun h => (h, args))

lemma handleSeq_zero (s : ℕ) (args : A) : handleSeq s 0 args = [] := by
  simp [handleSeq]

lemma handleSeq_succ (s n : ℕ) (args : A) :
    handleSeq s (n + 1) args = (s, args) :: handleSeq (s + 1) n args := by
  simp [handleSeq, List.range'_succ]

lemma handleSeq_length (s n : ℕ) (args : A) : (handleSeq s n args).length = n := by
  simp [handleSeq]

lemma handleSeq_map_fst (s n : ℕ) (args : A) :
    (handleSeq s n args).map Prod.fst = List.range' s n := by
  simp [handleSeq, List.map_map, Function.comp_def]

lemma handleSeq_snd (s n : ℕ) (args : A) :
    ∀ c ∈ handleSeq s n args, c.2 = args := by
  intro c hc
  simp only [handleSeq, List.mem_map] at hc
  obtain ⟨h, _, rfl⟩ := hc
  rfl

/-- If every attempt in the remaining budget fails with an error the
primary implementation decides to retry, the loop performs exactly `fuel`
further invocations on the current handle followed by `fuel - 1` freshly
acquired ones, acquires `fuel - 1` additional handles, and finally throws
the error of the last attempt. -/
lemma stubLoop_allFail (custom : Option (ErrVal → Bool))
    (invoke : ℕ → A → Except ErrVal V) (args : A) (errs : ℕ → ErrVal) :
    ∀ (fuel : ℕ), 1 ≤ fuel →
    ∀ (attempt : ℕ) (lastE : Option ErrVal) (cur next acq : ℕ) (calls : List (ℕ × A)),
    (∀ j, attempt ≤ j → j < attempt + fuel →
      invoke j args = Except.error (errs j) ∧ shouldRetry custom (errs j) = true) →
    stubLoop custom invoke args fuel attempt lastE cur next acq calls =
      ⟨Except.error (some (errs (attempt + fuel - 1))),
       calls.reverse ++ (cur, args) :: handleSeq next (fuel - 1) args,
       acq + (fuel - 1)⟩ := by
  intro fuel
  induction fuel with
  | zero => omega
  | succ f ih =>
    intro _ attempt lastE cur next acq calls hall
    have h1 := hall attempt (Nat.le_refl _) (by omega)
    rw [stubLoop, h1.1]
    simp only [h1.2, if_true]
    by_cases hf : f = 0
    · subst hf
      simp [handleSeq_zero]
    · simp only [hf, if_false]
      rw [ih (by omega) (attempt + 1) (some (errs attempt)) next (next + 1) (acq + 1)
        ((cur, args) :: calls) (fun j hj1 hj2 => hall j (by omega) (by omega))]
      have hf1 : f - 1 + 1 = f := by omega
      simp only [CallTrace.mk.injEq]
      refine ⟨?_, ?_, ?_⟩
      · have : attempt + 1 + f - 1 = attempt + (f + 1) - 1 := by omega
        rw [this]
      · rw [List.reverse_cons, List.append_assoc]
        have : handleSeq next f args = (next, args) :: handleSeq (next + 1) (f - 1) args := by
          conv_lhs => rw [← hf1]
          exact handleSeq_succ next (f - 1) args
        simp [this]
      · omega

/-- If the first `m` remaining attempts fail with errors the primary
implementation decides to retry and attempt `attempt + m` succeeds with
`v` (within budget), the loop returns `v`, having performed `m + 1`
invocations and `m` additional acquisitions. -/
lemma stubLoop_succeeds (custom : Option (ErrVal → Bool))
    (invoke : ℕ → A → Except ErrVal V) (args : A) (errs : ℕ → ErrVal) (v : V) :
    ∀ (m fuel : ℕ), m < fuel →
    ∀ (attempt : ℕ) (lastE : Option ErrVal) (cur next acq : ℕ) (calls : List (ℕ × A)),
    (∀ j, attempt ≤ j → j < attempt + m →
      invoke j args = Except.error (errs j) ∧ shouldRetry custom (errs j) = true) →
    invoke (attempt + m) args = Except.ok v →
    stubLoop custom invoke args fuel attempt lastE cur next acq calls =
      ⟨Except.ok v,
       calls.reverse ++ (cur, args) :: handleSeq next m args,
       acq + m⟩ := by
  intro m
  induction m with
  | zero =>
    intro fuel hfuel attempt lastE cur next acq calls _ hok
    obtain ⟨f, rfl⟩ : ∃ f, fuel = f + 1 := ⟨fuel - 1, by omega⟩
    rw [stubLoop]
    rw [Nat.add_zero] at hok
    rw [hok]
    simp [handleSeq_zero]
  | succ m ih =>
    intro fuel hfuel attempt lastE cur next acq calls hall hok
    obtain ⟨f, rfl⟩ : ∃ f, fuel = f + 1 := ⟨fuel - 1, by omega⟩
    have h1 := hall attempt (Nat.le_refl _) (by omega)
    rw [stubLoop, h1.1]
    simp only [h1.2, if_true]
    have hf : ¬ f = 0 := by omega
    simp only [hf, if_false]
    rw [ih f (by omega) (attempt + 1) (some (errs attempt)) next (next + 1) (acq + 1)
      ((cur, args) :: calls) (fun j hj1 hj2 => hall j (by omega) (by omega))
      (by rw [show attempt + 1 + m = attempt + (m + 1) by omega]; exact hok)]
    simp only [CallTrace.mk.injEq]
    refine ⟨trivial, ?_, ?_⟩
    · rw [List.reverse_cons, List.append_assoc, handleSeq_succ]
      simp
    · omega

/-- Whatever the outcomes, a loop started with the invariant
`next = cur + 1` (the next acquisition index is one past the current
handle) appends a contiguous block of handle indices to the calls it has
already recorded. -/
lemma stubLoop_handles (custom : Option (ErrVal → Bool))
    (invoke : ℕ → A → Except ErrVal V) (args : A) :
    ∀ (fuel attempt : ℕ) (lastE : Option ErrVal) (n acq : ℕ) (calls : List (ℕ × A)),
    ∃ k, (stubLoop custom invoke args fuel attempt lastE n (n + 1) acq calls).calls =
      calls.reverse ++ handleSeq n k args := by
  intro fuel
  induction fuel with
  | zero =>
    intro attempt lastE n acq calls
    exact ⟨0, by simp [stubLoop, handleSeq_zero]⟩
  | succ f ih =>
    intro attempt lastE n acq calls
    rw [stubLoop]
    cases hinv : invoke attempt args with
    | ok v =>
      exact ⟨1, by simp [handleSeq_succ, handleSeq_zero]⟩
    | error e =>
      by_cases hr : shouldRetry custom e
      · simp only [hr, if_true]
        by_cases hf : f = 0
        · subst hf
          exact ⟨1, by simp [handleSeq_succ, handleSeq_zero]⟩
        · simp only [hf, if_false]
          obtain ⟨k, hk⟩ := ih (attempt + 1) (some e) (n + 1) (acq + 1) ((n, args) :: calls)
          refine ⟨k + 1, ?_⟩
          rw [hk, List.reverse_cons, List.append_assoc, handleSeq_succ]
          simp
      · simp only [hr, if_false]
        exact ⟨1, by simp [handleSeq_succ, handleSeq_zero]⟩

/-- Every call of the loop only appends to the calls already recorded. -/
lemma stubLoop_len_ge (custom : Option (ErrVal → Bool))
    (invoke : ℕ → A → Except ErrVal V) (args : A) :
    ∀ (fuel attempt : ℕ) (lastE : Option ErrVal) (cur next acq : ℕ) (calls : List (ℕ × A)),
    calls.length ≤ (stubLoop custom invoke args fuel attempt lastE cur next acq calls).calls.length := by
  intro fuel
  induction fuel with
  | zero =>
    intro attempt lastE cur next acq calls
    simp [stubLoop]
  | succ f ih =>
    intro attempt lastE cur next acq calls
    rw [stubLoop]
    cases hinv : invoke attempt args with
    | ok v => simp
    | error e =>
      by_cases hr : shouldRetry custom e
      · simp only [hr, if_true]
        by_cases hf : f = 0
        · simp [hf]
        · simp only [hf, if_false]
          have h := ih (attempt + 1) (some e) next (next + 1) (acq + 1) ((cur, args) :: calls)
          simp only [List.length_cons] at h
          omega
      · simp [hr]

/-- With at least one permitted attempt, the loop performs at least one
invocation. -/
lemma stubLoop_len_succ (custom : Option (ErrVal → Bool))
    (invoke : ℕ → A → Except ErrVal V) (args : A)
    (fuel : ℕ) (hfuel : 1 ≤ fuel)
    (attempt : ℕ) (lastE : Option ErrVal) (cur next acq : ℕ) (calls : List (ℕ × A)) :
    calls.length + 1 ≤ (stubLoop custom invoke args fuel attempt lastE cur next acq calls).calls.length := by
  obtain ⟨f, rfl⟩ : ∃ f, fuel = f + 1 := ⟨fuel - 1, by omega⟩
  rw [stubLoop]
  cases hinv : invoke attempt args with
  | ok v => simp
  | error e =>
    by_cases hr : shouldRetry custom e
    · simp only [hr, if_true]
      by_cases hf : f = 0
      · simp [hf]
      · simp only [hf, if_false]
        have h := stubLoop_len_ge custom invoke args f (attempt + 1) (some e) next (next + 1)
          (acq + 1) ((cur, args) :: calls)
        simp only [List.length_cons] at h
        omega
    · simp [hr]

/-- Alternate implementation, attempts after the first: if every attempt in
the remaining budget fails with an error the effective predicate retries,
the loop invokes on `fuel` freshly acquired handles and throws the error of
the last attempt. -/
lemma stubLoopAlt_allFail (pred : ErrVal → Bool)
    (invoke : ℕ → A → Except ErrVal V) (args : A) (errs : ℕ → ErrVal) :
    ∀ (fuel : ℕ), 1 ≤ fuel →
    ∀ (attempt : ℕ), 2 ≤ attempt →
    ∀ (lastE : Option ErrVal) (next acq : ℕ) (calls : List (ℕ × A)),
    (∀ j, attempt ≤ j → j < attempt + fuel →
      invoke j args = Except.error (errs j) ∧ pred (errs j) = true) →
    stubLoopAlt pred invoke args fuel attempt lastE next acq calls =
      ⟨Except.error (some (errs (attempt + fuel - 1))),
       calls.reverse ++ handleSeq next fuel args,
       acq + fuel⟩ := by
  intro fuel
  induction fuel with
  | zero => omega
  | succ f ih =>
    intro _ attempt hatt lastE next acq calls hall
    have h1 := hall attempt (Nat.le_refl _) (by omega)
    have hne : ¬ attempt = 1 := by omega
    rw [stubLoopAlt]
    simp only [hne, if_false, h1.1, h1.2, if_true]
    by_cases hf : f = 0
    · subst hf
      simp [handleSeq_succ, handleSeq_zero]
    · simp only [hf, if_false]
      rw [ih (by omega) (attempt + 1) (by omega) (some (errs attempt)) (next + 1) (acq + 1)
        ((next, args) :: calls) (fun j hj1 hj2 => hall j (by omega) (by omega))]
      simp only [CallTrace.mk.injEq]
      refine ⟨?_, ?_, by omega⟩
      · have : attempt + 1 + f - 1 = attempt + (f + 1) - 1 := by omega
        rw [this]
      · rw [List.reverse_cons, List.append_assoc, handleSeq_succ]
        simp

/-- Alternate implementation, attempts after the first: `m` retried
failures followed by a success within budget return the success value
after `m + 1` invocations, each on a freshly acquired handle. -/
lemma stubLoopAlt_succeeds (pred : ErrVal → Bool)
    (invoke : ℕ → A → Except ErrVal V) (args : A) (errs : ℕ → ErrVal) (v : V) :
    ∀ (m fuel : ℕ), m < fuel →
    ∀ (attempt : ℕ), 2 ≤ attempt →
    ∀ (lastE : Option ErrVal) (next acq : ℕ) (calls : List (ℕ × A)),
    (∀ j, attempt ≤ j → j < attempt + m →
      invoke j args = Except.error (errs j) ∧ pred (errs j) = true) →
    invoke (attempt + m) args = Except.ok v →
    stubLoopAlt pred invoke args fuel attempt lastE next acq calls =
      ⟨Except.ok v,
       calls.reverse ++ handleSeq next (m + 1) args,
       acq + (m + 1)⟩ := by
  intro m
  induction m with
  | zero =>
    intro fuel hfuel attempt hatt lastE next acq calls _ hok
    obtain ⟨f, rfl⟩ : ∃ f, fuel = f + 1 := ⟨fuel - 1, by omega⟩
    have hne : ¬ attempt = 1 := by omega
    rw [Nat.add_zero] at hok
    rw [stubLoopAlt]
    simp only [hne, if_false, hok]
    simp [handleSeq_succ, handleSeq_zero]
  | succ m ih =>
    intro fuel hfuel attempt hatt lastE next acq calls hall hok
    obtain ⟨f, rfl⟩ : ∃ f, fuel = f + 1 := ⟨fuel - 1, by omega⟩
    have h1 := hall attempt (Nat.le_refl _) (by omega)
    have hne : ¬ attempt = 1 := by omega
    rw [stubLoopAlt]
    simp only [hne, if_false, h1.1, h1.2, if_true]
    have hf : ¬ f = 0 := by omega
    simp only [hf, if_false]
    rw [ih f (by omega) (attempt + 1) (by omega) (some (errs attempt)) (next + 1) (acq + 1)
      ((next, args) :: calls) (fun j hj1 hj2 => hall j (by omega) (by omega))
      (by rw [show attempt + 1 + m = attempt + (m + 1) by omega]; exact hok)]
    simp only [CallTrace.mk.injEq]
    refine ⟨trivial, ?_, by omega⟩
    rw [List.reverse_cons, List.append_assoc]
    simp [handleSeq_succ]

/-- Alternate implementation, attempts after the first: whatever the
outcomes, the loop appends a contiguous block of freshly acquired handle
indices to the calls already recorded. -/
lemma stubLoopAlt_handles (pred : ErrVal → Bool)
    (invoke : ℕ → A → Except ErrVal V) (args : A) :
    ∀ (fuel attempt : ℕ), 2 ≤ attempt →
    ∀ (lastE : Option ErrVal) (next acq : ℕ) (calls : List (ℕ × A)),
    ∃ k, (stubLoopAlt pred invoke args fuel attempt lastE next acq calls).calls =
      calls.reverse ++ handleSeq next k args := by
  intro fuel
  induction fuel with
  | zero =>
    intro attempt _ lastE next acq calls
    exact ⟨0, by simp [stubLoopAlt, handleSeq_zero]⟩
  | succ f ih =>
    intro attempt hatt lastE next acq calls
    have hne : ¬ attempt = 1 := by omega
    rw [stubLoopAlt]
    simp only [hne, if_false]
    cases hinv : invoke attempt args with
    | ok v =>
      exact ⟨1, by simp [handleSeq_succ, handleSeq_zero]⟩
    | error e =>
      by_cases hr : pred e
      · simp only [hr, if_true]
        by_cases hf : f = 0
        · subst hf
          exact ⟨1, by simp [handleSeq_succ, handleSeq_zero]⟩
        · simp only [hf, if_false]
          obtain ⟨k, hk⟩ := ih (attempt + 1) (by omega) (some e) (next + 1) (acq + 1)
            ((next, args) :: calls)
          refine ⟨k + 1, ?_⟩
          rw [hk, List.reverse_cons, List.append_assoc, handleSeq_succ]
          simp
      · simp only [hr, if_false]
        exact ⟨1, by simp [handleSeq_succ, handleSeq_zero]⟩

/-- Alternate implementation: the loop only appends to the recorded calls. -/
lemma stubLoopAlt_len_ge (pred : ErrVal → Bool)
    (invoke : ℕ → A → Except ErrVal V) (args : A) :
    ∀ (fuel attempt : ℕ) (lastE : Option ErrVal) (next acq : ℕ) (calls : List (ℕ × A)),
    calls.length ≤ (stubLoopAlt pred invoke args fuel attempt lastE next acq calls).calls.length := by
  intro fuel
  induction fuel with
  | zero =>
    intro attempt lastE next acq calls
    simp [stubLoopAlt]
  | succ f ih =>
    intro attempt lastE next acq calls
    rw [stubLoopAlt]
    cases hinv : invoke attempt args with
    | ok v => simp
    | error e =>
      by_cases hr : pred e
      · simp only [hr, if_true]
        by_cases hf : f = 0
        · simp [hf]
        · simp only [hf, if_false]
          have h := ih (attempt + 1) (some e)
            (if attempt = 1 then next else next + 1)
            (if attempt = 1 then acq else acq + 1)
            (((if attempt = 1 then 0 else next), args) :: calls)
          simp only [List.length_cons] at h
          omega
      · simp [hr]

/-- Alternate implementation: with at least one permitted attempt, the loop
performs at least one invocation. -/
lemma stubLoopAlt_len_succ (pred : ErrVal → Bool)
    (invoke : ℕ → A → Except ErrVal V) (args : A)
    (fuel : ℕ) (hfuel : 1 ≤ fuel)
    (attempt : ℕ) (lastE : Option ErrVal) (next acq : ℕ) (calls : List (ℕ × A)) :
    calls.length + 1 ≤ (stubLoopAlt pred invoke args fuel attempt lastE next acq calls).calls.length := by
  obtain ⟨f, rfl⟩ : ∃ f, fuel = f + 1 := ⟨fuel - 1, by omega⟩
  rw [stubLoopAlt]
  cases hinv : invoke attempt args with
  | ok v => simp
  | error e =>
    by_cases hr : pred e
    · simp only [hr, if_true]
      by_cases hf : f = 0
      · simp [hf]
      · simp only [hf, if_false]
        have h := stubLoopAlt_len_ge pred invoke args f (attempt + 1) (some e)
          (if attempt = 1 then next else next + 1)
          (if attempt = 1 then acq else acq + 1)
          (((if attempt = 1 then 0 else next), args) :: calls)
        simp only [List.length_cons] at h
        omega
    · simp [hr]

/-- Primary implementation, whole call: if all `N ≥ 1` permitted attempts
fail with errors the configuration retries, the call invokes the method
`N` times (attempt 1 on the initial handle, then on fresh handles 1..N-1),
acquires `N - 1` additional handles and throws the `N`-th error. -/
lemma callRpc_allFail (custom : Option (ErrVal → Bool))
    (invoke : ℕ → A → Except ErrVal V) (args : A) (errs : ℕ → ErrVal)
    (N : ℕ) (hN : 1 ≤ N)
    (hall : ∀ j, 1 ≤ j → j ≤ N →
      invoke j args = Except.error (errs j) ∧ shouldRetry custom (errs j) = true) :
    callRpc (N : ℤ) custom invoke args =
      ⟨Except.error (some (errs N)), (0, args) :: handleSeq 1 (N - 1) args, N - 1⟩ := by
  rw [callRpc, Int.toNat_natCast]
  rw [stubLoop_allFail custom invoke args errs N hN 1 none 0 1 0 []
    (fun j hj1 hj2 => hall j hj1 (by omega))]
  simp [show 1 + N - 1 = N by omega]

/-- Primary implementation, whole call: `k - 1` retried failures followed
by a success on attempt `k ≤ N` return the success value after `k`
invocations and `k - 1` additional acquisitions. -/
lemma callRpc_succeeds (custom : Option (ErrVal → Bool))
    (invoke : ℕ → A → Except ErrVal V) (args : A) (errs : ℕ → ErrVal) (v : V)
    (N k : ℕ) (hk : 1 ≤ k) (hkN : k ≤ N)
    (hfail : ∀ j, 1 ≤ j → j < k →
      invoke j args = Except.error (errs j) ∧ shouldRetry custom (errs j) = true)
    (hok : invoke k args = Except.ok v) :
    callRpc (N : ℤ) custom invoke args =
      ⟨Except.ok v, (0, args) :: handleSeq 1 (k - 1) args, k - 1⟩ := by
  rw [callRpc, Int.toNat_natCast]
  rw [stubLoop_succeeds custom invoke args errs v (k - 1) N (by omega) 1 none 0 1 0 []
    (fun j hj1 hj2 => hfail j hj1 (by omega))
    (by rw [show 1 + (k - 1) = k by omega]; exact hok)]
  simp

/-- Primary implementation, whole call: the handles used by the successive
attempts are exactly the acquisition indices 0, 1, 2, … in order. -/
lemma callRpc_handles (maxAttempts : ℤ) (custom : Option (ErrVal → Bool))
    (invoke : ℕ → A → Except ErrVal V) (args : A) :
    ∃ k, (callRpc maxAttempts custom invoke args).calls = handleSeq 0 k args := by
  obtain ⟨k, hk⟩ := stubLoop_handles custom invoke args maxAttempts.toNat 1 none 0 0 []
  exact ⟨k, by simpa using hk⟩

/-- Alternate implementation, whole call: all `N ≥ 1` permitted attempts
failing with retried errors yield `N` invocations, `N - 1` additional
acquisitions and the `N`-th error. -/
lemma callRpcAlt_allFail (custom : Option (ErrVal → Bool))
    (invoke : ℕ → A → Except ErrVal V) (args : A) (errs : ℕ → ErrVal)
    (N : ℕ) (hN : 1 ≤ N)
    (hall : ∀ j, 1 ≤ j → j ≤ N →
      invoke j args = Except.error (errs j) ∧ shouldRetryAlt custom (errs j) = true) :
    callRpcAlt (N : ℤ) custom invoke args =
      ⟨Except.error (some (errs N)), (0, args) :: handleSeq 1 (N - 1) args, N - 1⟩ := by
  rw [callRpcAlt, Int.toNat_natCast]
  obtain ⟨f, rfl⟩ : ∃ f, N = f + 1 := ⟨N - 1, by omega⟩
  have h1 := hall 1 (Nat.le_refl _) (by omega)
  rw [stubLoopAlt]
  simp only [if_true, h1.1, h1.2]
  by_cases hf : f = 0
  · subst hf
    simp [handleSeq_zero]
  · simp only [hf, if_false]
    rw [stubLoopAlt_allFail (shouldRetryAlt custom) invoke args errs f (by omega) 2 (by omega)
      (some (errs 1)) 1 0 [(0, args)] (fun j hj1 hj2 => hall j (by omega) (by omega))]
    simp [show 2 + f - 1 = f + 1 by omega]

/-- Alternate implementation, whole call: `k - 1` retried failures followed
by a success on attempt `k ≤ N` return the success value after `k`
invocations and `k - 1` additional acquisitions. -/
lemma callRpcAlt_succeeds (custom : Option (ErrVal → Bool))
    (invoke : ℕ → A → Except ErrVal V) (args : A) (errs : ℕ → ErrVal) (v : V)
    (N k : ℕ) (hk : 1 ≤ k) (hkN : k ≤ N)
    (hfail : ∀ j, 1 ≤ j → j < k →
      invoke j args = Except.error (errs j) ∧ shouldRetryAlt custom (errs j) = true)
    (hok : invoke k args = Except.ok v) :
    callRpcAlt (N : ℤ) custom invoke args =
      ⟨Except.ok v, (0, args) :: handleSeq 1 (k - 1) args, k - 1⟩ := by
  rw [callRpcAlt, Int.toNat_natCast]
  obtain ⟨f, rfl⟩ : ∃ f, N = f + 1 := ⟨N - 1, by omega⟩
  rw [stubLoopAlt]
  by_cases hk1 : k = 1
  · subst hk1
    simp only [if_true, hok]
    simp [handleSeq_zero]
  · have h1 := hfail 1 (Nat.le_refl _) (by omega)
    simp only [if_true, h1.1, h1.2]
    have hf : ¬ f = 0 := by omega
    simp only [hf, if_false]
    rw [stubLoopAlt_succeeds (shouldRetryAlt custom) invoke args errs v (k - 2) f (by omega)
      2 (by omega) (some (errs 1)) 1 0 [(0, args)]
      (fun j hj1 hj2 => hfail j (by omega) (by omega))
      (by rw [show 2 + (k - 2) = k by omega]; exact hok)]
    simp only [CallTrace.mk.injEq]
    refine ⟨trivial, ?_, by omega⟩
    rw [show k - 2 + 1 = k - 1 by omega]
    simp

/-- Alternate implementation, whole call: the handles used by the
successive attempts are exactly the acquisition indices 0, 1, 2, … in
order. -/
lemma callRpcAlt_handles (maxAttempts : ℤ) (custom : Option (ErrVal → Bool))
    (invoke : ℕ → A → Except ErrVal V) (args : A) :
    ∃ k, (callRpcAlt maxAttempts custom invoke args).calls = handleSeq 0 k args := by
  rw [callRpcAlt]
  cases hfuel : maxAttempts.toNat with
  | zero => exact ⟨0, by simp [stubLoopAlt, handleSeq_zero]⟩
  | succ f =>
    rw [stubLoopAlt]
    simp only [if_true]
    cases hinv : invoke 1 args with
    | ok v => exact ⟨1, by simp [handleSeq_succ, handleSeq_zero]⟩
    | error e =>
      by_cases hr : shouldRetryAlt custom e
      · simp only [hr, if_true]
        by_cases hf : f = 0
        · subst hf
          exact ⟨1, by simp [handleSeq_succ, handleSeq_zero]⟩
        · simp only [hf, if_false]
          obtain ⟨k, hk⟩ := stubLoopAlt_handles (shouldRetryAlt custom) invoke args f 2
            (by omega) (some e) 1 0 [(0, args)]
          refine ⟨k + 1, ?_⟩
          rw [hk]
          simp [handleSeq_succ]
      · simp only [hr, if_false]
        exact ⟨1, by simp [handleSeq_succ, handleSeq_zero]⟩

/-- One failing step of the primary loop, with the match on the invocation
outcome reduced. -/
lemma stubLoop_step_error (custom : Option (ErrVal → Bool))
    (invoke : ℕ → A → Except ErrVal V) (args : A)
    (f attempt : ℕ) (lastE : Option ErrVal) (cur next acq : ℕ) (calls : List (ℕ × A))
    (e : ErrVal) (h : invoke attempt args = Except.error e) :
    stubLoop custom invoke args (f + 1) attempt lastE cur next acq calls =
      if shouldRetry custom e = true then
        (if f = 0 then
          ⟨Except.error (some e), ((cur, args) :: calls).reverse, acq⟩
        else
          stubLoop custom invoke args f (attempt + 1) (some e) next (next + 1) (acq + 1)
            ((cur, args) :: calls))
      else ⟨Except.error (some e), ((cur, args) :: calls).reverse, acq⟩ := by
  rw [stubLoop, h]

/-- One failing step of the alternate loop, with the match on the
invocation outcome reduced and the attempt-1 conditionals inlined. -/
lemma stubLoopAlt_step_error (pred : ErrVal → Bool)
    (invoke : ℕ → A → Except ErrVal V) (args : A)
    (f attempt : ℕ) (lastE : Option ErrVal) (next acq : ℕ) (calls : List (ℕ × A))
    (e : ErrVal) (h : invoke attempt args = Except.error e) :
    stubLoopAlt pred invoke args (f + 1) attempt lastE next acq calls =
      if pred e = true then
        (if f = 0 then
          ⟨Except.error (some e),
            (((if attempt = 1 then 0 else next), args) :: calls).reverse,
            (if attempt = 1 then acq else acq + 1)⟩
        else
          stubLoopAlt pred invoke args f (attempt + 1) (some e)
            (if attempt = 1 then next else next + 1)
            (if attempt = 1 then acq else acq + 1)
            (((if attempt = 1 then 0 else next), args) :: calls))
      else
        ⟨Except.error (some e),
          (((if attempt = 1 then 0 else next), args) :: calls).reverse,
          (if attempt = 1 then acq else acq + 1)⟩ := by
  rw [stubLoopAlt, h]

end LoopLemmas

/-! ### Claim theorems -/

section Claims

variable {A V : Type}

/-- Claim C5 (confirmed): for every error value `e`, the built-in
classifier `isErrorRetryable` returns true iff `e` carries a truthy
`retryable` marker AND does not carry a truthy `overloaded` marker AND the
string rendering of `e` does not contain the literal substring
"Durable Object is overloaded".  The decision is a Lean function of the
error value alone, hence deterministic and pure. -/
theorem claim_C5 (e : ErrVal) :
    isErrorRetryable e = true ↔
      (e.retryable = some true ∧ ¬ e.overloaded = some true
        ∧ ¬ List.IsInfix overloadMessage.data e.msg.data) := by
  obtain ⟨r, o, m⟩ := e
  rw [isErrorRetryable]
  simp only [Bool.and_eq_true, Bool.not_eq_true']
  rw [includesOverloadMessage]
  cases r <;> cases o <;>
    simp [truthy, decide_eq_false_iff_not] <;>
    rename_i b <;> cases b <;> simp

/-- Claim C6 (corrected: the original claim allowed any integer
`maxDelayMs`, but for a negative `maxDelayMs` the cap is negative and the
interval `[0, cap]` is empty, so the delay cannot lie in it; with the
data-model constraint `maxDelayMs ≥ 0` restored, the claim holds): for
every random draw in `[0, 1)`, every attempt `a ≥ 1` and all integers
`baseDelayMs ≥ 0` and `maxDelayMs ≥ 0`, the computed backoff delay lies in
the closed interval `[0, min(2^a * baseDelayMs, maxDelayMs)]`. -/
theorem claim_C6 (rand : ℚ) (h0 : 0 ≤ rand) (h1 : rand < 1)
    (attempt : ℕ) (ha : 1 ≤ attempt)
    (baseDelayMs maxDelayMs : ℤ) (hb : 0 ≤ baseDelayMs) (hm : 0 ≤ maxDelayMs) :
    0 ≤ jitterBackoff rand attempt baseDelayMs maxDelayMs ∧
    jitterBackoff rand attempt baseDelayMs maxDelayMs ≤
      min (2 ^ attempt * baseDelayMs) maxDelayMs := by
  have hcap0 : (0:ℤ) ≤ min (2 ^ attempt * baseDelayMs) maxDelayMs :=
    le_min (mul_nonneg (pow_nonneg (by norm_num) _) hb) hm
  have hcapQ : (0:ℚ) ≤ ((min (2 ^ attempt * baseDelayMs) maxDelayMs : ℤ) : ℚ) := by
    exact_mod_cast hcap0
  constructor
  · rw [jitterBackoff]
    refine Int.le_floor.mpr ?_
    exact_mod_cast mul_nonneg h0 hcapQ
  · rw [jitterBackoff]
    have hle : rand * ((min (2 ^ attempt * baseDelayMs) maxDelayMs : ℤ) : ℚ) ≤
        ((min (2 ^ attempt * baseDelayMs) maxDelayMs : ℤ) : ℚ) := by
      calc rand * ((min (2 ^ attempt * baseDelayMs) maxDelayMs : ℤ) : ℚ)
          ≤ 1 * ((min (2 ^ attempt * baseDelayMs) maxDelayMs : ℤ) : ℚ) :=
            mul_le_mul_of_nonneg_right h1.le hcapQ
        _ = _ := one_mul _
    calc Int.floor (rand * ((min (2 ^ attempt * baseDelayMs) maxDelayMs : ℤ) : ℚ))
        ≤ Int.floor ((min (2 ^ attempt * baseDelayMs) maxDelayMs : ℤ) : ℚ) :=
          Int.floor_le_floor hle
      _ = min (2 ^ attempt * baseDelayMs) maxDelayMs := Int.floor_intCast _

/-- Witness for claim C6 at the concrete input `rand = 0`, `attempt = 1`,
`baseDelayMs = 100`, `maxDelayMs = 3000`. -/
theorem claim_C6_witness :
    (0:ℚ) ≤ 0 ∧ (0:ℚ) < 1 ∧
    (0 ≤ jitterBackoff 0 1 100 3000 ∧
     jitterBackoff 0 1 100 3000 ≤ min ((2:ℤ) ^ 1 * 100) 3000) :=
  ⟨le_refl 0, by norm_num,
    claim_C6 0 (le_refl 0) (by norm_num) 1 (le_refl 1) 100 3000 (by norm_num) (by norm_num)⟩

/-- Counterexample to claim C6 as stated: with `maxDelayMs = -1` (an
integer the claim quantifies over), `baseDelayMs = 0`, `attempt = 1` and
the random draw 0, the computed delay is 0 but the claimed interval
`[0, min(2^1 * 0, -1)] = [0, -1]` is empty, so the delay does not lie in
it. -/
theorem claim_C6_counterexample :
    ¬ (0 ≤ jitterBackoff 0 1 0 (-1) ∧
       jitterBackoff 0 1 0 (-1) ≤ min ((2:ℤ) ^ 1 * 0) (-1)) := by
  intro h
  have h2 := h.2
  rw [jitterBackoff] at h2
  norm_num at h2

/-- Claim C10 (confirmed): for every random draw in `[0, 1)`, every attempt
`a ≥ 1` and all integer inputs, whenever the cap
`min(2^a * baseDelayMs, maxDelayMs)` is positive the computed delay is a
non-negative integer strictly below the cap (the cap itself is never
returned), and whenever the cap is 0 the delay is exactly 0. -/
theorem claim_C10 (rand : ℚ) (h0 : 0 ≤ rand) (h1 : rand < 1)
    (attempt : ℕ) (ha : 1 ≤ attempt) (baseDelayMs maxDelayMs : ℤ) :
    (0 < min (2 ^ attempt * baseDelayMs) maxDelayMs →
      0 ≤ jitterBackoff rand attempt baseDelayMs maxDelayMs ∧
      jitterBackoff rand attempt baseDelayMs maxDelayMs <
        min (2 ^ attempt * baseDelayMs) maxDelayMs)
    ∧ (min (2 ^ attempt * baseDelayMs) maxDelayMs = 0 →
      jitterBackoff rand attempt baseDelayMs maxDelayMs = 0) := by
  constructor
  · intro hpos
    have hcapQ : (0:ℚ) ≤ ((min (2 ^ attempt * baseDelayMs) maxDelayMs : ℤ) : ℚ) := by
      exact_mod_cast hpos.le
    have hcapQpos : (0:ℚ) < ((min (2 ^ attempt * baseDelayMs) maxDelayMs : ℤ) : ℚ) := by
      exact_mod_cast hpos
    constructor
    · rw [jitterBackoff]
      refine Int.le_floor.mpr ?_
      exact_mod_cast mul_nonneg h0 hcapQ
    · rw [jitterBackoff]
      refine Int.floor_lt.mpr ?_
      calc rand * ((min (2 ^ attempt * baseDelayMs) maxDelayMs : ℤ) : ℚ)
          < 1 * ((min (2 ^ attempt * baseDelayMs) maxDelayMs : ℤ) : ℚ) :=
            mul_lt_mul_of_pos_right h1 hcapQpos
        _ = _ := one_mul _
  · intro hzero
    rw [jitterBackoff, hzero]
    simp

/-- Witness for claim C10: at `rand = 0`, `attempt = 1`, `baseDelayMs =
100`, `maxDelayMs = 3000` the cap `min(200, 3000) = 200` is positive and
the conclusion applies. -/
theorem claim_C10_witness :
    (0:ℚ) ≤ 0 ∧ (0:ℚ) < 1 ∧
    ((0 < min ((2:ℤ) ^ 1 * 100) 3000 →
      0 ≤ jitterBackoff 0 1 100 3000 ∧
      jitterBackoff 0 1 100 3000 < min ((2:ℤ) ^ 1 * 100) 3000)
    ∧ (min ((2:ℤ) ^ 1 * 100) 3000 = 0 → jitterBackoff 0 1 100 3000 = 0)) :=
  ⟨le_refl 0, by norm_num, claim_C10 0 (le_refl 0) (by norm_num) 1 (le_refl 1) 100 3000⟩

/-- Claim C1 (corrected): the OR-composition of the built-in rule with a
caller-supplied predicate holds only in the primary implementation.  For
every failed attempt with budget remaining (at least two attempts still
permitted), the primary implementation performs a further invocation iff
the built-in rule accepts the error OR the supplied predicate does — in
particular the predicate returning false never suppresses the retry of a
built-in-retryable error; the alternate implementation instead performs a
further invocation iff the supplied predicate alone accepts the error, so
there the predicate returning false does suppress such retries. -/
theorem claim_C1 (p : ErrVal → Bool) (e : ErrVal)
    (invoke : ℕ → A → Except ErrVal V) (args : A)
    (fuel attempt : ℕ) (lastE : Option ErrVal) (cur next acq : ℕ) (calls : List (ℕ × A))
    (hfail : invoke attempt args = Except.error e) (hbudget : 2 ≤ fuel) :
    ((calls.length + 2 ≤
        (stubLoop (some p) invoke args fuel attempt lastE cur next acq calls).calls.length)
      ↔ (isErrorRetryable e = true ∨ p e = true))
  ∧ ((calls.length + 2 ≤
        (stubLoopAlt (shouldRetryAlt (some p)) invoke args fuel attempt lastE next acq calls).calls.length)
      ↔ p e = true) := by
  obtain ⟨f, rfl⟩ : ∃ f, fuel = f + 1 := ⟨fuel - 1, by omega⟩
  have hf0 : ¬ f = 0 := by omega
  constructor
  · rw [stubLoop_step_error (some p) invoke args f attempt lastE cur next acq calls e hfail]
    by_cases hr : shouldRetry (some p) e
    · rw [if_pos hr, if_neg hf0]
      have h := stubLoop_len_succ (some p) invoke args f (by omega) (attempt + 1) (some e)
        next (next + 1) (acq + 1) ((cur, args) :: calls)
      simp only [List.length_cons] at h
      have hr2 : isErrorRetryable e = true ∨ p e = true := by
        have hb : (isErrorRetryable e || p e) = true := hr
        simpa [Bool.or_eq_true] using hb
      exact ⟨fun _ => hr2, fun _ => by omega⟩
    · rw [if_neg hr]
      have hr2 : ¬ (isErrorRetryable e = true ∨ p e = true) := by
        intro hor
        apply hr
        show (isErrorRetryable e || p e) = true
        simpa [Bool.or_eq_true] using hor
      constructor
      · intro hlen
        simp only [List.length_reverse, List.length_cons] at hlen
        omega
      · intro hor
        exact absurd hor hr2
  · have hpe : shouldRetryAlt (some p) = p := rfl
    rw [hpe, stubLoopAlt_step_error p invoke args f attempt lastE next acq calls e hfail]
    by_cases hr : p e
    · rw [if_pos hr, if_neg hf0]
      have h := stubLoopAlt_len_succ p invoke args f (by omega) (attempt + 1) (some e)
        (if attempt = 1 then next else next + 1)
        (if attempt = 1 then acq else acq + 1)
        (((if attempt = 1 then 0 else next), args) :: calls)
      simp only [List.length_cons] at h
      exact ⟨fun _ => hr, fun _ => by omega⟩
    · rw [if_neg hr]
      constructor
      · intro hlen
        simp only [List.length_reverse, List.length_cons] at hlen
        omega
      · intro hor
        exact absurd hor hr

/-- Witness for claim C1 at a concrete loop state: attempt 1 of a call
with three permitted attempts, a built-in-retryable error and the
constant-false predicate. -/
theorem claim_C1_witness :
    ((fun (_ : ℕ) (_ : ℕ) => (Except.error ⟨some true, none, "t"⟩ : Except ErrVal ℕ)) 1 0 =
        Except.error ⟨some true, none, "t"⟩)
  ∧ 2 ≤ 3
  ∧ ((([] : List (ℕ × ℕ)).length + 2 ≤
        (stubLoop (some (fun _ => false))
          (fun _ _ => (Except.error ⟨some true, none, "t"⟩ : Except ErrVal ℕ))
          0 3 1 none 0 1 0 []).calls.length)
      ↔ (isErrorRetryable ⟨some true, none, "t"⟩ = true ∨ (fun (_ : ErrVal) => false) ⟨some true, none, "t"⟩ = true))
  ∧ ((([] : List (ℕ × ℕ)).length + 2 ≤
        (stubLoopAlt (shouldRetryAlt (some (fun _ => false)))
          (fun _ _ => (Except.error ⟨some true, none, "t"⟩ : Except ErrVal ℕ))
          0 3 1 none 1 0 []).calls.length)
      ↔ (fun (_ : ErrVal) => false) ⟨some true, none, "t"⟩ = true) := by
  have h := claim_C1 (fun _ => false) ⟨some true, none, "t"⟩
    (fun _ _ => (Except.error ⟨some true, none, "t"⟩ : Except ErrVal ℕ)) 0
    3 1 none 0 1 0 [] rfl (by norm_num)
  exact ⟨rfl, by norm_num, h.1, h.2⟩

/-- Counterexample to claim C1 as stated: in the alternate implementation
(`options?.isRetryable ?? isErrorRetryable`), a built-in-retryable error
combined with a caller predicate that returns false is not retried even
though the budget (3 attempts) permits it — the call performs exactly one
invocation, so the predicate returning false does suppress the retry of an
error the built-in rule accepts. -/
theorem claim_C1_counterexample :
    isErrorRetryable ⟨some true, none, "transient"⟩ = true
  ∧ (1:ℤ) < 3
  ∧ (callRpcAlt 3 (some (fun _ => false))
      (fun _ _ => (Except.error ⟨some true, none, "transient"⟩ : Except ErrVal ℕ))
      (0:ℕ)).invocations = 1 :=
  ⟨by decide, by norm_num, rfl⟩

/-- Claim C2 (confirmed): for every `maxAttempts = N ≥ 1` and every method
whose invocations always reject with an error the configured classifier
deems retryable, the wrapped call (in both implementations) invokes the
underlying method exactly `N` times and then rejects with the `N`-th error
value itself, unchanged. -/
theorem claim_C2 (N : ℕ) (hN : 1 ≤ N) (custom : Option (ErrVal → Bool))
    (invoke : ℕ → A → Except ErrVal V) (args : A) (errs : ℕ → ErrVal)
    (hfail : ∀ a, 1 ≤ a → a ≤ N → invoke a args = Except.error (errs a))
    (hretry : ∀ a, 1 ≤ a → a ≤ N → shouldRetry custom (errs a) = true)
    (hretryAlt : ∀ a, 1 ≤ a → a ≤ N → shouldRetryAlt custom (errs a) = true) :
    ((callRpc (N : ℤ) custom invoke args).invocations = N
      ∧ (callRpc (N : ℤ) custom invoke args).outcome = Except.error (some (errs N)))
  ∧ ((callRpcAlt (N : ℤ) custom invoke args).invocations = N
      ∧ (callRpcAlt (N : ℤ) custom invoke args).outcome = Except.error (some (errs N))) := by
  rw [callRpc_allFail custom invoke args errs N hN
      (fun j h1 h2 => ⟨hfail j h1 h2, hretry j h1 h2⟩),
    callRpcAlt_allFail custom invoke args errs N hN
      (fun j h1 h2 => ⟨hfail j h1 h2, hretryAlt j h1 h2⟩)]
  refine ⟨⟨?_, rfl⟩, ⟨?_, rfl⟩⟩ <;>
    · simp only [CallTrace.invocations, List.length_cons, handleSeq_length]
      omega

/-- Witness for claim C2 at `N = 2`, the default configuration (no custom
predicate) and a method that always rejects with a retryable error. -/
theorem claim_C2_witness :
    1 ≤ 2
  ∧ ((callRpc ((2:ℕ) : ℤ) none
        (fun _ _ => (Except.error ⟨some true, none, "boom"⟩ : Except ErrVal ℕ))
        (0:ℕ)).invocations = 2
      ∧ (callRpc ((2:ℕ) : ℤ) none
          (fun _ _ => (Except.error ⟨some true, none, "boom"⟩ : Except ErrVal ℕ))
          (0:ℕ)).outcome = Except.error (some ⟨some true, none, "boom"⟩))
  ∧ ((callRpcAlt ((2:ℕ) : ℤ) none
        (fun _ _ => (Except.error ⟨some true, none, "boom"⟩ : Except ErrVal ℕ))
        (0:ℕ)).invocations = 2
      ∧ (callRpcAlt ((2:ℕ) : ℤ) none
          (fun _ _ => (Except.error ⟨some true, none, "boom"⟩ : Except ErrVal ℕ))
          (0:ℕ)).outcome = Except.error (some ⟨some true, none, "boom"⟩)) := by
  have h := claim_C2 2 (by norm_num) none
    (fun _ _ => (Except.error ⟨some true, none, "boom"⟩ : Except ErrVal ℕ)) (0:ℕ)
    (fun _ => ⟨some true, none, "boom"⟩)
    (fun a h1 h2 => rfl)
    (fun a h1 h2 => (by decide : shouldRetry none ⟨some true, none, "boom"⟩ = true))
    (fun a h1 h2 => (by decide : shouldRetryAlt none ⟨some true, none, "boom"⟩ = true))
  exact ⟨by norm_num, h.1, h.2⟩

/-- Claim C3 (corrected: the original claim quantified over any
caller-supplied predicate, but in both implementations a predicate that
returns true on an overloaded error causes it to be retried; with the
restriction that the predicate, when present, rejects the error, the claim
holds): for every error carrying a truthy overloaded marker or whose
rendered message contains the platform-overload substring, and every
configuration with `maxAttempts > 1` whose custom predicate (if any)
returns false on that error, the wrapped call invokes the underlying
method exactly once and rejects with that error immediately. -/
theorem claim_C3 (maxAttempts : ℤ) (hmax : 1 < maxAttempts)
    (custom : Option (ErrVal → Bool))
    (invoke : ℕ → A → Except ErrVal V) (args : A) (e : ErrVal)
    (hov : truthy e.overloaded = true ∨ includesOverloadMessage e.msg = true)
    (hcustom : ∀ p, custom = some p → p e = false)
    (hfail : invoke 1 args = Except.error e) :
    ((callRpc maxAttempts custom invoke args).invocations = 1
      ∧ (callRpc maxAttempts custom invoke args).outcome = Except.error (some e))
  ∧ ((callRpcAlt maxAttempts custom invoke args).invocations = 1
      ∧ (callRpcAlt maxAttempts custom invoke args).outcome = Except.error (some e)) := by
  have hbuiltin : isErrorRetryable e = false := by
    rw [isErrorRetryable]
    rcases hov with h | h
    · simp [h]
    · simp [h]
  have hsr : shouldRetry custom e = false := by
    cases custom with
    | none => simp [shouldRetry, hbuiltin]
    | some p => simp [shouldRetry, hbuiltin, hcustom p rfl]
  have hsralt : shouldRetryAlt custom e = false := by
    cases custom with
    | none => simpa [shouldRetryAlt] using hbuiltin
    | some p => simpa [shouldRetryAlt] using hcustom p rfl
  obtain ⟨f, hf⟩ : ∃ f, maxAttempts.toNat = f + 1 := ⟨maxAttempts.toNat - 1, by omega⟩
  constructor
  · rw [callRpc, hf, stubLoop_step_error custom invoke args f 1 none 0 1 0 [] e hfail,
      if_neg (by simp [hsr])]
    exact ⟨rfl, rfl⟩
  · rw [callRpcAlt, hf, stubLoopAlt_step_error (shouldRetryAlt custom) invoke args f 1 none 1 0 [] e hfail,
      if_neg (by simp [hsralt])]
    exact ⟨rfl, rfl⟩

/-- Witness for claim C3: an error with a truthy overloaded marker, no
custom predicate and `maxAttempts = 2` yields exactly one invocation in
both implementations. -/
theorem claim_C3_witness :
    (1:ℤ) < 2
  ∧ ((callRpc 2 none
        (fun _ _ => (Except.error ⟨some true, some true, "boom"⟩ : Except ErrVal ℕ))
        (0:ℕ)).invocations = 1
      ∧ (callRpc 2 none
          (fun _ _ => (Except.error ⟨some true, some true, "boom"⟩ : Except ErrVal ℕ))
          (0:ℕ)).outcome = Except.error (some ⟨some true, some true, "boom"⟩))
  ∧ ((callRpcAlt 2 none
        (fun _ _ => (Except.error ⟨some true, some true, "boom"⟩ : Except ErrVal ℕ))
        (0:ℕ)).invocations = 1
      ∧ (callRpcAlt 2 none
          (fun _ _ => (Except.error ⟨some true, some true, "boom"⟩ : Except ErrVal ℕ))
          (0:ℕ)).outcome = Except.error (some ⟨some true, some true, "boom"⟩)) := by
  have h := claim_C3 2 (by norm_num) none
    (fun _ _ => (Except.error ⟨some true, some true, "boom"⟩ : Except ErrVal ℕ)) (0:ℕ)
    ⟨some true, some true, "boom"⟩
    (Or.inl rfl) (fun p hp => by cases hp) rfl
  exact ⟨by norm_num, h.1, h.2⟩

/-- Counterexample to claim C3 as stated: with a caller-supplied predicate
that returns true, an error carrying a truthy overloaded marker is retried
by both implementations — two invocations instead of the claimed single
one under `maxAttempts = 2 > 1`. -/
theorem claim_C3_counterexample :
    truthy (ErrVal.mk (some true) (some true) "boom").overloaded = true
  ∧ (callRpc 2 (some (fun _ => true))
      (fun _ _ => (Except.error ⟨some true, some true, "boom"⟩ : Except ErrVal ℕ))
      (0:ℕ)).invocations = 2
  ∧ (callRpcAlt 2 (some (fun _ => true))
      (fun _ _ => (Except.error ⟨some true, some true, "boom"⟩ : Except ErrVal ℕ))
      (0:ℕ)).invocations = 2 :=
  ⟨rfl, rfl, rfl⟩

/-- Claim C4 (confirmed): for every `maxAttempts = N ≥ 1`, if the method
rejects with retried errors on attempts `1..k-1` and resolves on attempt
`k ≤ N`, the wrapped call (in both implementations) resolves with exactly
the resolved value, the method is invoked exactly `k` times, each time
with the original arguments, and exactly `k - 1` additional handles are
acquired via the handle getter after the first. -/
theorem claim_C4 (N k : ℕ) (hk : 1 ≤ k) (hkN : k ≤ N)
    (custom : Option (ErrVal → Bool))
    (invoke : ℕ → A → Except ErrVal V) (args : A) (errs : ℕ → ErrVal) (v : V)
    (hfail : ∀ a, 1 ≤ a → a < k → invoke a args = Except.error (errs a))
    (hretry : ∀ a, 1 ≤ a → a < k → shouldRetry custom (errs a) = true)
    (hretryAlt : ∀ a, 1 ≤ a → a < k → shouldRetryAlt custom (errs a) = true)
    (hok : invoke k args = Except.ok v) :
    ((callRpc (N : ℤ) custom invoke args).outcome = Except.ok v
      ∧ (callRpc (N : ℤ) custom invoke args).invocations = k
      ∧ (callRpc (N : ℤ) custom invoke args).acquisitions = k - 1
      ∧ ∀ c ∈ (callRpc (N : ℤ) custom invoke args).calls, c.2 = args)
  ∧ ((callRpcAlt (N : ℤ) custom invoke args).outcome = Except.ok v
      ∧ (callRpcAlt (N : ℤ) custom invoke args).invocations = k
      ∧ (callRpcAlt (N : ℤ) custom invoke args).acquisitions = k - 1
      ∧ ∀ c ∈ (callRpcAlt (N : ℤ) custom invoke args).calls, c.2 = args) := by
  rw [callRpc_succeeds custom invoke args errs v N k hk hkN
      (fun j h1 h2 => ⟨hfail j h1 h2, hretry j h1 h2⟩) hok,
    callRpcAlt_succeeds custom invoke args errs v N k hk hkN
      (fun j h1 h2 => ⟨hfail j h1 h2, hretryAlt j h1 h2⟩) hok]
  refine ⟨⟨rfl, ?_, rfl, ?_⟩, ⟨rfl, ?_, rfl, ?_⟩⟩
  · simp only [CallTrace.invocations, List.length_cons, handleSeq_length]
    omega
  · intro c hc
    simp only [List.mem_cons] at hc
    rcases hc with rfl | hc
    · rfl
    · exact handleSeq_snd 1 (k - 1) args c hc
  · simp only [CallTrace.invocations, List.length_cons, handleSeq_length]
    omega
  · intro c hc
    simp only [List.mem_cons] at hc
    rcases hc with rfl | hc
    · rfl
    · exact handleSeq_snd 1 (k - 1) args c hc

/-- Witness for claim C4: `N = 3`, failure with a retryable error on
attempt 1, success with value 42 on attempt `k = 2`, no custom
predicate. -/
theorem claim_C4_witness :
    1 ≤ 2 ∧ 2 ≤ 3
  ∧ ((callRpc ((3:ℕ) : ℤ) none
        (fun a _ => if a < 2 then (Except.error ⟨some true, none, "boom"⟩ : Except ErrVal ℕ)
          else Except.ok 42)
        (0:ℕ)).outcome = Except.ok 42
      ∧ (callRpc ((3:ℕ) : ℤ) none
          (fun a _ => if a < 2 then (Except.error ⟨some true, none, "boom"⟩ : Except ErrVal ℕ)
            else Except.ok 42)
          (0:ℕ)).invocations = 2
      ∧ (callRpc ((3:ℕ) : ℤ) none
          (fun a _ => if a < 2 then (Except.error ⟨some true, none, "boom"⟩ : Except ErrVal ℕ)
            else Except.ok 42)
          (0:ℕ)).acquisitions = 1)
  ∧ ((callRpcAlt ((3:ℕ) : ℤ) none
        (fun a _ => if a < 2 then (Except.error ⟨some true, none, "boom"⟩ : Except ErrVal ℕ)
          else Except.ok 42)
        (0:ℕ)).outcome = Except.ok 42
      ∧ (callRpcAlt ((3:ℕ) : ℤ) none
          (fun a _ => if a < 2 then (Except.error ⟨some true, none, "boom"⟩ : Except ErrVal ℕ)
            else Except.ok 42)
          (0:ℕ)).invocations = 2
      ∧ (callRpcAlt ((3:ℕ) : ℤ) none
          (fun a _ => if a < 2 then (Except.error ⟨some true, none, "boom"⟩ : Except ErrVal ℕ)
            else Except.ok 42)
          (0:ℕ)).acquisitions = 1) := by
  have h := claim_C4 3 2 (by norm_num) (by norm_num) none
    (fun a _ => if a < 2 then (Except.error ⟨some true, none, "boom"⟩ : Except ErrVal ℕ)
      else Except.ok 42)
    (0:ℕ) (fun _ => ⟨some true, none, "boom"⟩) 42
    (fun a h1 h2 => by
      have : a = 1 := by omega
      subst this
      rfl)
    (fun a h1 h2 => (by decide : shouldRetry none ⟨some true, none, "boom"⟩ = true))
    (fun a h1 h2 => (by decide : shouldRetryAlt none ⟨some true, none, "boom"⟩ = true)) rfl
  exact ⟨by norm_num, by norm_num,
    ⟨h.1.1, h.1.2.1, h.1.2.2.1⟩, ⟨h.2.1, h.2.2.1, h.2.2.2.1⟩⟩

/-- Claim C7 (confirmed): in both implementations, for every logical call
the handle indices used by the successive attempts are exactly
0, 1, 2, …, i.e. attempt `k > 1` runs on the `(k-1)`-th handle freshly
acquired via the handle getter — never the handle of attempt `k - 1`
(consecutive handles always differ) — regardless of which predicate
accepted the retried errors. -/
theorem claim_C7 (maxAttempts : ℤ) (custom : Option (ErrVal → Bool))
    (invoke : ℕ → A → Except ErrVal V) (args : A) :
    ((callRpc maxAttempts custom invoke args).calls.map Prod.fst =
        List.range (callRpc maxAttempts custom invoke args).calls.length
      ∧ List.Chain' (fun h g => h ≠ g)
          ((callRpc maxAttempts custom invoke args).calls.map Prod.fst))
  ∧ ((callRpcAlt maxAttempts custom invoke args).calls.map Prod.fst =
        List.range (callRpcAlt maxAttempts custom invoke args).calls.length
      ∧ List.Chain' (fun h g => h ≠ g)
          ((callRpcAlt maxAttempts custom invoke args).calls.map Prod.fst)) := by
  obtain ⟨k1, h1⟩ := callRpc_handles maxAttempts custom invoke args
  obtain ⟨k2, h2⟩ := callRpcAlt_handles maxAttempts custom invoke args
  constructor
  · rw [h1, handleSeq_map_fst, handleSeq_length, ← List.range_eq_range']
    exact ⟨rfl, ((List.pairwise_lt_range k1).imp fun hlt => Nat.ne_of_lt hlt).chain'⟩
  · rw [h2, handleSeq_map_fst, handleSeq_length, ← List.range_eq_range']
    exact ⟨rfl, ((List.pairwise_lt_range k2).imp fun hlt => Nat.ne_of_lt hlt).chain'⟩

/-- Claim C9 (confirmed): for every configuration with `maxAttempts ≤ 0`
(violating the spec precondition `maxAttempts ≥ 1`, which the code never
validates), the `while` guard fails immediately: the wrapped call performs
zero underlying invocations and rejects with the JavaScript value
`undefined` (the never-assigned `lastError`), not an Error. -/
theorem claim_C9 (maxAttempts : ℤ) (hmax : maxAttempts ≤ 0)
    (custom : Option (ErrVal → Bool))
    (invoke : ℕ → A → Except ErrVal V) (args : A) :
    (callRpc maxAttempts custom invoke args).invocations = 0
    ∧ (callRpc maxAttempts custom invoke args).outcome = Except.error none := by
  have h : maxAttempts.toNat = 0 := by omega
  rw [callRpc, h]
  exact ⟨rfl, rfl⟩

/-- Witness for claim C9 at `maxAttempts = 0` and a method that would
succeed if it were ever invoked. -/
theorem claim_C9_witness :
    (0:ℤ) ≤ 0
  ∧ (callRpc 0 none (fun _ _ => (Except.ok 5 : Except ErrVal ℕ)) (0:ℕ)).invocations = 0
  ∧ (callRpc 0 none (fun _ _ => (Except.ok 5 : Except ErrVal ℕ)) (0:ℕ)).outcome =
      Except.error none := by
  have h := claim_C9 0 (le_refl 0) none (fun _ _ => (Except.ok 5 : Except ErrVal ℕ)) (0:ℕ)
  exact ⟨le_refl 0, h.1, h.2⟩

/-- Claim C8 (confirmed): reading a non-callable member of a wrapped handle
returns the underlying value unmodified with no retry logic attached, and
every namespace operation other than `get`, `getByName` and `jurisdiction`
(`idFromName`, `idFromString`, `newUniqueId`) is returned as the underlying
function itself, so each invocation of the wrapper is exactly one
invocation of the underlying operation with identical arguments and an
unmodified result. -/
theorem claim_C8 {R : Type} (stubMembers : String → Member A R)
    (retryWrapped : String → A → R)
    (nsMembers : String → Member A R) (nsWrapped : String → A → R)
    (prop : String) :
    (∀ v, stubMembers prop = Member.value v →
      stubProxyGet stubMembers retryWrapped prop = Member.value v)
  ∧ (prop ≠ "get" → prop ≠ "getByName" → prop ≠ "jurisdiction" →
      ∀ f, nsMembers prop = Member.method f →
        nsProxyGet nsMembers nsWrapped prop = Member.method f) := by
  constructor
  · intro v hv
    rw [stubProxyGet, hv]
  · intro h1 h2 h3 f hf
    simp only [nsProxyGet, hf]
    rw [if_neg h1, if_neg h2, if_neg h3]

/-- Witness for claim C8: a handle with a non-callable member `id` holding
7, and a namespace whose `idFromName` is the successor function. -/
theorem claim_C8_witness :
    stubProxyGet
      (fun p => if p = "id" then Member.value (7:ℕ) else Member.method (fun n : ℕ => n + 1))
      (fun _ a => a) "id" = Member.value 7
  ∧ nsProxyGet (fun _ => Member.method (fun n : ℕ => n + 1)) (fun _ a => a)
      "idFromName" = Member.method (fun n : ℕ => n + 1) := by
  constructor
  · exact (claim_C8
      (fun p => if p = "id" then Member.value (7:ℕ) else Member.method (fun n : ℕ => n + 1))
      (fun _ a => a) (fun _ => Member.method (fun n : ℕ => n + 1)) (fun _ a => a) "id").1
      7 rfl
  · exact (claim_C8
      (fun p => if p = "id" then Member.value (7:ℕ) else Member.method (fun n : ℕ => n + 1))
      (fun _ a => a) (fun _ => Member.method (fun n : ℕ => n + 1)) (fun _ a => a)
      "idFromName").2 (by decide) (by decide) (by decide) _ rfl

end Claims

end DoRetryProxy
